import Mathlib

/-!
Shallow embedding of the pentominoes repository (Rust).

Source files embedded:
  - src/coord.rs        : Coord, Vec2D and their arithmetic
  - src/cell_shape.rs   : Tile, CellShape, coord_cmp, from_coordinate_list,
                          from_2darray, filled_tiles
  - src/transform.rs    : Transform (3x3 integer matrix), the 8 RIGID_SYMMETRIES,
                          transform_coord, transform_shape, at, compose, Mul
  - src/pentomino.rs    : create_all_orientations (HashSet modelled as Finset)

Machine integers (isize) are modelled as unbounded Int; the program only ever
handles coordinates far below the isize range.
-/

/-- Model of struct Coord in src/coord.rs: an integer pair. -/
structure Coord where
  x : Int
  y : Int
deriving DecidableEq, Repr

/-- Model of struct Vec2D in src/coord.rs: an integer displacement. -/
structure Vec2D where
  x : Int
  y : Int
deriving DecidableEq, Repr

/-- Model of impl Add<Vec2D> for Coord in src/coord.rs. -/
def Coord.add (c : Coord) (v : Vec2D) : Coord :=
  ⟨c.x + v.x, c.y + v.y⟩

/-- Model of isize::cmp (the standard integer comparator used by Rust Ord). -/
def intCmp (a b : Int) : Ordering :=
  if a < b then .lt else if a = b then .eq else .gt

/-- Model of fn coord_cmp in src/cell_shape.rs:
lhs.x.cmp(&rhs.x).then(lhs.y.cmp(&rhs.y)). -/
def coord_cmp (lhs rhs : Coord) : Ordering :=
  (intCmp lhs.x rhs.x).then (intCmp lhs.y rhs.y)

/-- The non-strict order induced by coord_cmp (what "sorted ascending by
coord_cmp" means for adjacent elements). -/
def coord_le (a b : Coord) : Prop :=
  coord_cmp a b ≠ Ordering.gt

instance : DecidableRel coord_le := fun a b =>
  inferInstanceAs (Decidable (coord_cmp a b ≠ Ordering.gt))

/-- Model of enum Tile in src/cell_shape.rs. -/
inductive Tile where
  | Filled
  | Empty
deriving DecidableEq, Repr

/-- Model of struct CellShape in src/cell_shape.rs: a list of filled tiles,
sorted by coord_cmp, adjusted so the minimum coordinates are 0. -/
structure CellShape where
  tiles : List Coord
deriving DecidableEq, Repr

/-- Model of CellShape::empty. -/
def CellShape.empty : CellShape :=
  ⟨[]⟩

/-- Model of Vec::dedup (drops consecutive equal elements; since elements are
plain values, which member of a run survives is unobservable). -/
def dedupRun : List Coord → List Coord
  | [] => []
  | [a] => [a]
  | a :: b :: rest => if a = b then dedupRun (b :: rest) else a :: dedupRun (b :: rest)

/-- Minimum of f over a list, folded left with a starting value (models
Iterator::min over a nonempty iterator: the head seeds the fold). -/
def foldlMin (f : Coord → Int) (init : Int) (l : List Coord) : Int :=
  l.foldl (fun m d => min m (f d)) init

/-- Model of CellShape::from_coordinate_list in src/cell_shape.rs:
translate so both minima are 0, sort by coord_cmp, dedup. -/
def CellShape.from_coordinate_list (coords : List Coord) : CellShape :=
  match coords with
  | [] => CellShape.empty
  | c :: cs =>
    let min_x := foldlMin Coord.x c.x cs
    let min_y := foldlMin Coord.y c.y cs
    let shifted := (c :: cs).map (fun d => Coord.mk (d.x - min_x) (d.y - min_y))
    ⟨dedupRun (List.insertionSort coord_le shifted)⟩

/-- Model of CellShape::filled_tiles (the iterator over the tile list). -/
def CellShape.filled_tiles (s : CellShape) : List Coord :=
  s.tiles

/-- Model of CellShape::from_2darray: row index is y, column index is x,
collecting the Filled cells in row-major order, then normalizing. -/
def CellShape.from_2darray (grid : List (List Tile)) : CellShape :=
  CellShape.from_coordinate_list <|
    (grid.enum.map (fun row =>
      row.2.enum.filterMap (fun cell =>
        if cell.2 = Tile.Filled then some (Coord.mk (cell.1 : Int) (row.1 : Int)) else none))).flatten

/-- Model of struct Transform in src/transform.rs: a 3x3 integer matrix,
elems r c being row r, column c. -/
structure Transform where
  elems : Fin 3 → Fin 3 → Int

/-- Transform equality (derive(PartialEq) on the matrix contents), decided by
comparing the nine entries. -/
instance : DecidableEq Transform := fun a b =>
  decidable_of_iff
    (a.elems 0 0 = b.elems 0 0 ∧ a.elems 0 1 = b.elems 0 1 ∧ a.elems 0 2 = b.elems 0 2 ∧
     a.elems 1 0 = b.elems 1 0 ∧ a.elems 1 1 = b.elems 1 1 ∧ a.elems 1 2 = b.elems 1 2 ∧
     a.elems 2 0 = b.elems 2 0 ∧ a.elems 2 1 = b.elems 2 1 ∧ a.elems 2 2 = b.elems 2 2)
    (by
      constructor
      · rintro ⟨h00, h01, h02, h10, h11, h12, h20, h21, h22⟩
        obtain ⟨ae⟩ := a
        obtain ⟨be⟩ := b
        congr 1
        funext i j
        fin_cases i <;> fin_cases j <;> assumption
      · intro h
        subst h
        exact ⟨rfl, rfl, rfl, rfl, rfl, rfl, rfl, rfl, rfl⟩)

namespace Transform

/-- Model of Transform::identity. -/
def identity : Transform :=
  ⟨![![1, 0, 0],
     ![0, 1, 0],
     ![0, 0, 1]]⟩

/-- Model of Transform::mirror_horizontal (reflection over the X axis). -/
def mirror_horizontal : Transform :=
  ⟨![![-1, 0, 0],
     ![ 0, 1, 0],
     ![ 0, 0, 1]]⟩

/-- Model of Transform::mirror_vertical (reflection over the Y axis). -/
def mirror_vertical : Transform :=
  ⟨![![1,  0, 0],
     ![0, -1, 0],
     ![0,  0, 1]]⟩

/-- Model of Transform::mirror_diagonal (reflection over the line Y=X). -/
def mirror_diagonal : Transform :=
  ⟨![![ 0, -1, 0],
     ![-1,  0, 0],
     ![ 0,  0, 1]]⟩

/-- Model of Transform::mirror_diagonal2 (reflection over the line Y=-X). -/
def mirror_diagonal2 : Transform :=
  ⟨![![0, 1, 0],
     ![1, 0, 0],
     ![0, 0, 1]]⟩

/-- Model of Transform::rotate90 (quarter turn counter clockwise). -/
def rotate90 : Transform :=
  ⟨![![ 0, 1, 0],
     ![-1, 0, 0],
     ![ 0, 0, 1]]⟩

/-- Model of Transform::rotate180. -/
def rotate180 : Transform :=
  ⟨![![-1,  0, 0],
     ![ 0, -1, 0],
     ![ 0,  0, 1]]⟩

/-- Model of Transform::rotate270. -/
def rotate270 : Transform :=
  ⟨![![ 0, -1, 0],
     ![ 1,  0, 0],
     ![ 0,  0, 1]]⟩

/-- Model of Transform::transform_coord: apply the first two rows of the
matrix to the homogeneous column (x, y, 1). -/
def transform_coord (t : Transform) (c : Coord) : Coord :=
  ⟨t.elems 0 0 * c.x + t.elems 0 1 * c.y + t.elems 0 2,
   t.elems 1 0 * c.x + t.elems 1 1 * c.y + t.elems 1 2⟩

/-- Model of Transform::transform_shape: map the transform over the filled
tiles and re-normalize. -/
def transform_shape (t : Transform) (cell_shape : CellShape) : CellShape :=
  CellShape.from_coordinate_list (cell_shape.filled_tiles.map (fun c => t.transform_coord c))

/-- Model of Transform::at: self.elems[j][i]. -/
def atIdx (t : Transform) (i j : Fin 3) : Int :=
  t.elems j i

/-- Model of the local fn dot inside Transform::compose. -/
def dot (lhs rhs : Transform) (i j : Fin 3) : Int :=
    lhs.atIdx i 0 * rhs.atIdx 0 j
  + lhs.atIdx i 1 * rhs.atIdx 1 j
  + lhs.atIdx i 2 * rhs.atIdx 2 j

/-- Model of Transform::compose (also impl Mul for Transform). -/
def compose (self rhs : Transform) : Transform :=
  ⟨![![dot self rhs 0 0, dot self rhs 1 0, dot self rhs 2 0],
     ![dot self rhs 0 1, dot self rhs 1 1, dot self rhs 2 1],
     ![dot self rhs 0 2, dot self rhs 1 2, dot self rhs 2 2]]⟩

end Transform

/-- Model of the constant RIGID_SYMMETRIES in src/transform.rs, in source
order. -/
def RIGID_SYMMETRIES : List Transform :=
  [Transform.identity,
   Transform.mirror_horizontal,
   Transform.mirror_vertical,
   Transform.mirror_diagonal,
   Transform.mirror_diagonal2,
   Transform.rotate90,
   Transform.rotate180,
   Transform.rotate270]

/-- Model of fn create_all_orientations in src/pentomino.rs: apply every
transform of the slice to the representative and collect the results into a
set (HashSet modelled as Finset, keyed by CellShape value equality). -/
def create_all_orientations (rep : CellShape) (symmetries : List Transform) : Finset CellShape :=
  (symmetries.map (fun t => t.transform_shape rep)).toFinset

/-- The orientation enumerator: create_all_orientations with the full
RIGID_SYMMETRIES slice, as used by Pentomino::shapes. -/
def orientationsOf (s : CellShape) : Finset CellShape :=
  create_all_orientations s RIGID_SYMMETRIES

/-! ### Order facts about coord_cmp -/

theorem coord_le_iff {a b : Coord} :
    coord_le a b ↔ a.x < b.x ∨ (a.x = b.x ∧ a.y ≤ b.y) := by
  unfold coord_le coord_cmp intCmp
  split_ifs <;> simp [Ordering.then] <;> omega

instance : IsTotal Coord coord_le :=
  ⟨fun a b => by rw [coord_le_iff, coord_le_iff]; omega⟩

instance : IsTrans Coord coord_le :=
  ⟨fun a b c hab hbc => by rw [coord_le_iff] at *; omega⟩

instance : IsAntisymm Coord coord_le :=
  ⟨fun a b hab hba => by
    rw [coord_le_iff] at hab hba
    obtain ⟨ax, ay⟩ := a
    obtain ⟨bx, by'⟩ := b
    simp only [Coord.mk.injEq]
    simp only at hab hba
    omega⟩

/-! ### dedupRun -/

theorem mem_dedupRun {c : Coord} : ∀ {l : List Coord}, c ∈ dedupRun l ↔ c ∈ l
  | [] => Iff.rfl
  | [a] => Iff.rfl
  | a :: b :: rest => by
    have ih : c ∈ dedupRun (b :: rest) ↔ c ∈ b :: rest := mem_dedupRun
    by_cases hab : a = b
    · subst hab
      have hd : dedupRun (a :: a :: rest) = dedupRun (a :: rest) := by
        simp [dedupRun]
      rw [hd, ih]
      simp only [List.mem_cons]
      tauto
    · simp only [dedupRun, if_neg hab, List.mem_cons, ih]

theorem dedupRun_sublist : ∀ l : List Coord, List.Sublist (dedupRun l) l
  | [] => List.Sublist.refl _
  | [a] => List.Sublist.refl _
  | a :: b :: rest => by
    by_cases hab : a = b
    · simp only [dedupRun, if_pos hab]
      exact (dedupRun_sublist (b :: rest)).cons a
    · simp only [dedupRun, if_neg hab]
      exact (dedupRun_sublist (b :: rest)).cons₂ a

theorem dedupRun_sorted {l : List Coord} (h : l.Sorted coord_le) :
    (dedupRun l).Sorted coord_le :=
  h.sublist (dedupRun_sublist l)

theorem dedupRun_nodup : ∀ {l : List Coord}, l.Sorted coord_le → (dedupRun l).Nodup
  | [] => fun _ => List.nodup_nil
  | [a] => fun _ => List.nodup_singleton a
  | a :: b :: rest => fun h => by
    have hab : coord_le a b := List.rel_of_sorted_cons h b (by simp)
    have htail : (b :: rest).Sorted coord_le := h.of_cons
    by_cases heq : a = b
    · simp only [dedupRun, if_pos heq]
      exact dedupRun_nodup htail
    · simp only [dedupRun, if_neg heq]
      refine List.nodup_cons.mpr ⟨?_, dedupRun_nodup htail⟩
      intro hmem
      rcases List.mem_cons.mp (mem_dedupRun.mp hmem) with h1 | h2
      · exact heq h1
      · have hba : coord_le b a := List.rel_of_sorted_cons htail a h2
        exact heq (antisymm hab hba)

/-! ### canonList: sort then dedup -/

/-- The sort-then-dedup pipeline of from_coordinate_list. -/
def canonList (l : List Coord) : List Coord :=
  dedupRun (List.insertionSort coord_le l)

theorem mem_canonList {c : Coord} {l : List Coord} : c ∈ canonList l ↔ c ∈ l := by
  rw [canonList, mem_dedupRun]
  exact (List.perm_insertionSort coord_le l).mem_iff

theorem canonList_sorted (l : List Coord) : (canonList l).Sorted coord_le :=
  dedupRun_sorted (List.sorted_insertionSort coord_le l)

theorem canonList_nodup (l : List Coord) : (canonList l).Nodup :=
  dedupRun_nodup (List.sorted_insertionSort coord_le l)

/-- Sorted nodup lists with the same members are equal. -/
theorem sorted_nodup_unique {l₁ l₂ : List Coord}
    (s₁ : l₁.Sorted coord_le) (s₂ : l₂.Sorted coord_le)
    (n₁ : l₁.Nodup) (n₂ : l₂.Nodup)
    (h : ∀ c, c ∈ l₁ ↔ c ∈ l₂) : l₁ = l₂ :=
  List.eq_of_perm_of_sorted
    (List.perm_of_nodup_nodup_toFinset_eq n₁ n₂ (by ext c; simp [h c])) s₁ s₂

theorem canonList_congr {l₁ l₂ : List Coord} (h : ∀ c, c ∈ l₁ ↔ c ∈ l₂) :
    canonList l₁ = canonList l₂ :=
  sorted_nodup_unique (canonList_sorted l₁) (canonList_sorted l₂)
    (canonList_nodup l₁) (canonList_nodup l₂)
    (fun c => by rw [mem_canonList, mem_canonList]; exact h c)

theorem canonList_eq_self {l : List Coord} (hs : l.Sorted coord_le) (hn : l.Nodup) :
    canonList l = l :=
  sorted_nodup_unique (canonList_sorted l) hs (canonList_nodup l) hn
    (fun _ => mem_canonList)

/-! ### foldlMin -/

theorem foldlMin_cons (f : Coord → Int) (i : Int) (d : Coord) (l : List Coord) :
    foldlMin f i (d :: l) = foldlMin f (min i (f d)) l := rfl

theorem foldlMin_le_init (f : Coord → Int) :
    ∀ (l : List Coord) (i : Int), foldlMin f i l ≤ i
  | [], _ => le_refl _
  | d :: l, i => by
    rw [foldlMin_cons]
    exact (foldlMin_le_init f l _).trans (min_le_left _ _)

theorem foldlMin_le_of_mem (f : Coord → Int) {d : Coord} :
    ∀ {l : List Coord} (i : Int), d ∈ l → foldlMin f i l ≤ f d
  | [], _, h => absurd h (List.not_mem_nil d)
  | e :: l, i, h => by
    rcases List.mem_cons.mp h with rfl | hl
    · rw [foldlMin_cons]
      exact (foldlMin_le_init f l _).trans (min_le_right _ _)
    · rw [foldlMin_cons]
      exact foldlMin_le_of_mem f _ hl

theorem foldlMin_eq_init_or_mem (f : Coord → Int) :
    ∀ (l : List Coord) (i : Int), foldlMin f i l = i ∨ ∃ d ∈ l, foldlMin f i l = f d
  | [], _ => Or.inl rfl
  | d :: l, i => by
    rw [foldlMin_cons]
    rcases foldlMin_eq_init_or_mem f l (min i (f d)) with h | ⟨e, he, hee⟩
    · rcases min_cases i (f d) with ⟨hm, _⟩ | ⟨hm, _⟩
      · exact Or.inl (h.trans hm)
      · exact Or.inr ⟨d, by simp, h.trans hm⟩
    · exact Or.inr ⟨e, by simp [he], hee⟩

/-- The seeded fold minimum over a nonempty list is determined by the set of
members (seed f c with c a member in both lists). -/
theorem foldlMin_mem_congr (f : Coord → Int) {c₁ c₂ : Coord} {cs₁ cs₂ : List Coord}
    (h : ∀ d, d ∈ c₁ :: cs₁ ↔ d ∈ c₂ :: cs₂) :
    foldlMin f (f c₁) cs₁ = foldlMin f (f c₂) cs₂ := by
  have le₁ : ∀ d ∈ c₁ :: cs₁, foldlMin f (f c₁) cs₁ ≤ f d := by
    intro d hd
    rcases List.mem_cons.mp hd with rfl | hd'
    · exact foldlMin_le_init f cs₁ _
    · exact foldlMin_le_of_mem f _ hd'
  have le₂ : ∀ d ∈ c₂ :: cs₂, foldlMin f (f c₂) cs₂ ≤ f d := by
    intro d hd
    rcases List.mem_cons.mp hd with rfl | hd'
    · exact foldlMin_le_init f cs₂ _
    · exact foldlMin_le_of_mem f _ hd'
  have mem₁ : ∃ d ∈ c₁ :: cs₁, foldlMin f (f c₁) cs₁ = f d := by
    rcases foldlMin_eq_init_or_mem f cs₁ (f c₁) with h' | ⟨d, hd, hdd⟩
    · exact ⟨c₁, by simp, h'⟩
    · exact ⟨d, by simp [hd], hdd⟩
  have mem₂ : ∃ d ∈ c₂ :: cs₂, foldlMin f (f c₂) cs₂ = f d := by
    rcases foldlMin_eq_init_or_mem f cs₂ (f c₂) with h' | ⟨d, hd, hdd⟩
    · exact ⟨c₂, by simp, h'⟩
    · exact ⟨d, by simp [hd], hdd⟩
  obtain ⟨d₁, hd₁, he₁⟩ := mem₁
  obtain ⟨d₂, hd₂, he₂⟩ := mem₂
  refine le_antisymm ?_ ?_
  · rw [he₂]
    exact le₁ d₂ ((h d₂).mpr hd₂)
  · rw [he₁]
    exact le₂ d₁ ((h d₁).mp hd₁)

theorem foldlMin_map_add (f : Coord → Int) (g : Coord → Coord) (t : Int)
    (hg : ∀ d, f (g d) = f d + t) :
    ∀ (l : List Coord) (i : Int), foldlMin f (i + t) (l.map g) = foldlMin f i l + t
  | [], _ => rfl
  | d :: l, i => by
    rw [List.map_cons, foldlMin_cons, foldlMin_cons, hg d, min_add_add_right]
    exact foldlMin_map_add f g t hg l (min i (f d))

/-! ### from_coordinate_list -/

/-- The translation step of from_coordinate_list. -/
def shiftBy (mx my : Int) (d : Coord) : Coord :=
  ⟨d.x - mx, d.y - my⟩

theorem fcl_cons (c : Coord) (cs : List Coord) :
    CellShape.from_coordinate_list (c :: cs) =
      ⟨canonList ((c :: cs).map
        (shiftBy (foldlMin Coord.x c.x cs) (foldlMin Coord.y c.y cs)))⟩ := rfl

theorem mem_fcl_cons {d c : Coord} {cs : List Coord} :
    d ∈ (CellShape.from_coordinate_list (c :: cs)).tiles ↔
      d ∈ (c :: cs).map
        (shiftBy (foldlMin Coord.x c.x cs) (foldlMin Coord.y c.y cs)) := by
  rw [fcl_cons]
  exact mem_canonList

theorem fcl_sorted (L : List Coord) :
    (CellShape.from_coordinate_list L).tiles.Sorted coord_le := by
  cases L with
  | nil => exact List.sorted_nil
  | cons c cs =>
    rw [fcl_cons]
    exact canonList_sorted _

theorem fcl_nodup (L : List Coord) :
    (CellShape.from_coordinate_list L).tiles.Nodup := by
  cases L with
  | nil => exact List.nodup_nil
  | cons c cs =>
    rw [fcl_cons]
    exact canonList_nodup _

theorem fcl_nonneg {c : Coord} {cs : List Coord} :
    ∀ d ∈ (CellShape.from_coordinate_list (c :: cs)).tiles, 0 ≤ d.x ∧ 0 ≤ d.y := by
  intro d hd
  rw [mem_fcl_cons] at hd
  obtain ⟨e, he, rfl⟩ := List.mem_map.mp hd
  have hx : foldlMin Coord.x c.x cs ≤ e.x := by
    rcases List.mem_cons.mp he with rfl | he'
    · exact foldlMin_le_init Coord.x cs _
    · exact foldlMin_le_of_mem Coord.x _ he'
  have hy : foldlMin Coord.y c.y cs ≤ e.y := by
    rcases List.mem_cons.mp he with rfl | he'
    · exact foldlMin_le_init Coord.y cs _
    · exact foldlMin_le_of_mem Coord.y _ he'
  constructor <;> simp [shiftBy] <;> omega

theorem fcl_attains_x {c : Coord} {cs : List Coord} :
    ∃ d ∈ (CellShape.from_coordinate_list (c :: cs)).tiles, d.x = 0 := by
  have : ∃ e ∈ c :: cs, foldlMin Coord.x c.x cs = e.x := by
    rcases foldlMin_eq_init_or_mem Coord.x cs c.x with h | ⟨e, he, hee⟩
    · exact ⟨c, by simp, h⟩
    · exact ⟨e, by simp [he], hee⟩
  obtain ⟨e, he, hee⟩ := this
  refine ⟨shiftBy (foldlMin Coord.x c.x cs) (foldlMin Coord.y c.y cs) e, ?_, ?_⟩
  · rw [mem_fcl_cons]
    exact List.mem_map.mpr ⟨e, he, rfl⟩
  · simp [shiftBy]
    omega

theorem fcl_attains_y {c : Coord} {cs : List Coord} :
    ∃ d ∈ (CellShape.from_coordinate_list (c :: cs)).tiles, d.y = 0 := by
  have : ∃ e ∈ c :: cs, foldlMin Coord.y c.y cs = e.y := by
    rcases foldlMin_eq_init_or_mem Coord.y cs c.y with h | ⟨e, he, hee⟩
    · exact ⟨c, by simp, h⟩
    · exact ⟨e, by simp [he], hee⟩
  obtain ⟨e, he, hee⟩ := this
  refine ⟨shiftBy (foldlMin Coord.x c.x cs) (foldlMin Coord.y c.y cs) e, ?_, ?_⟩
  · rw [mem_fcl_cons]
    exact List.mem_map.mpr ⟨e, he, rfl⟩
  · simp [shiftBy]
    omega

/-- Uniform input translation does not change the constructed shape. -/
theorem fcl_translate (L : List Coord) (v : Vec2D) :
    CellShape.from_coordinate_list (L.map (fun c => c.add v)) =
      CellShape.from_coordinate_list L := by
  cases L with
  | nil => rfl
  | cons c cs =>
    rw [List.map_cons, fcl_cons, fcl_cons]
    have hx : foldlMin Coord.x (c.add v).x (cs.map (fun d => d.add v)) =
        foldlMin Coord.x c.x cs + v.x := by
      have hseed : (c.add v).x = c.x + v.x := rfl
      rw [hseed]
      exact foldlMin_map_add Coord.x (fun d => d.add v) v.x (fun d => rfl) cs c.x
    have hy : foldlMin Coord.y (c.add v).y (cs.map (fun d => d.add v)) =
        foldlMin Coord.y c.y cs + v.y := by
      have hseed : (c.add v).y = c.y + v.y := rfl
      rw [hseed]
      exact foldlMin_map_add Coord.y (fun d => d.add v) v.y (fun d => rfl) cs c.y
    rw [hx, hy]
    congr 1
    have : (c.add v :: cs.map (fun d => d.add v)) = (c :: cs).map (fun d => d.add v) := rfl
    rw [this, List.map_map]
    congr 1
    apply List.map_congr_left
    intro d _
    simp only [Function.comp_apply, shiftBy, Coord.add, Coord.mk.injEq]
    constructor <;> ring

/-- from_coordinate_list depends only on the set of input coordinates. -/
theorem fcl_mem_congr {L₁ L₂ : List Coord} (h : ∀ c, c ∈ L₁ ↔ c ∈ L₂) :
    CellShape.from_coordinate_list L₁ = CellShape.from_coordinate_list L₂ := by
  cases L₁ with
  | nil =>
    cases L₂ with
    | nil => rfl
    | cons c cs => exact absurd ((h c).mpr (by simp)) (List.not_mem_nil c)
  | cons c cs =>
    cases L₂ with
    | nil => exact absurd ((h c).mp (by simp)) (List.not_mem_nil c)
    | cons c' cs' =>
      have hmx : foldlMin Coord.x c.x cs = foldlMin Coord.x c'.x cs' :=
        foldlMin_mem_congr Coord.x h
      have hmy : foldlMin Coord.y c.y cs = foldlMin Coord.y c'.y cs' :=
        foldlMin_mem_congr Coord.y h
      rw [fcl_cons, fcl_cons, hmx, hmy]
      congr 1
      apply canonList_congr
      intro d
      simp only [List.mem_map]
      constructor
      · rintro ⟨e, he, rfl⟩
        exact ⟨e, (h e).mp he, rfl⟩
      · rintro ⟨e, he, rfl⟩
        exact ⟨e, (h e).mpr he, rfl⟩

/-- A tile list that already satisfies the canonical invariant is a fixed
point of from_coordinate_list. -/
theorem fcl_fixed {l : List Coord} (hs : l.Sorted coord_le) (hn : l.Nodup)
    (hpos : ∀ d ∈ l, 0 ≤ d.x ∧ 0 ≤ d.y)
    (hx0 : l = [] ∨ ∃ d ∈ l, d.x = 0) (hy0 : l = [] ∨ ∃ d ∈ l, d.y = 0) :
    CellShape.from_coordinate_list l = ⟨l⟩ := by
  cases l with
  | nil => rfl
  | cons c cs =>
    have hmx : foldlMin Coord.x c.x cs = 0 := by
      obtain ⟨d, hd, hd0⟩ := hx0.resolve_left (by simp)
      have hub : foldlMin Coord.x c.x cs ≤ 0 := by
        rw [← hd0]
        rcases List.mem_cons.mp hd with rfl | hd'
        · exact foldlMin_le_init Coord.x cs _
        · exact foldlMin_le_of_mem Coord.x _ hd'
      have hlb : 0 ≤ foldlMin Coord.x c.x cs := by
        rcases foldlMin_eq_init_or_mem Coord.x cs c.x with h | ⟨e, he, hee⟩
        · rw [h]
          exact (hpos c (by simp)).1
        · rw [hee]
          exact (hpos e (by simp [he])).1
      omega
    have hmy : foldlMin Coord.y c.y cs = 0 := by
      obtain ⟨d, hd, hd0⟩ := hy0.resolve_left (by simp)
      have hub : foldlMin Coord.y c.y cs ≤ 0 := by
        rw [← hd0]
        rcases List.mem_cons.mp hd with rfl | hd'
        · exact foldlMin_le_init Coord.y cs _
        · exact foldlMin_le_of_mem Coord.y _ hd'
      have hlb : 0 ≤ foldlMin Coord.y c.y cs := by
        rcases foldlMin_eq_init_or_mem Coord.y cs c.y with h | ⟨e, he, hee⟩
        · rw [h]
          exact (hpos c (by simp)).2
        · rw [hee]
          exact (hpos e (by simp [he])).2
      omega
    rw [fcl_cons, hmx, hmy]
    have hid : (c :: cs).map (shiftBy 0 0) = c :: cs := by
      have : ∀ d ∈ c :: cs, shiftBy 0 0 d = id d := by
        intro d _
        obtain ⟨dx, dy⟩ := d
        simp [shiftBy]
      rw [List.map_congr_left this, List.map_id]
    rw [hid]
    congr 1
    exact canonList_eq_self hs hn

/-- Normalization is idempotent. -/
theorem fcl_idem (L : List Coord) :
    CellShape.from_coordinate_list (CellShape.from_coordinate_list L).tiles =
      CellShape.from_coordinate_list L := by
  cases L with
  | nil => rfl
  | cons c cs =>
    have h := fcl_fixed (l := (CellShape.from_coordinate_list (c :: cs)).tiles)
      (fcl_sorted _) (fcl_nodup _) fcl_nonneg
      (Or.inr fcl_attains_x) (Or.inr fcl_attains_y)
    rw [h]

/-- Applying a transform after normalization gives the same shape as applying
it to the raw list: the normalizing translation commutes (up to a translation,
which from_coordinate_list absorbs) with the affine map. -/
theorem fcl_map_fcl (t : Transform) (L : List Coord) :
    CellShape.from_coordinate_list
        ((CellShape.from_coordinate_list L).tiles.map (fun c => t.transform_coord c)) =
      CellShape.from_coordinate_list (L.map (fun c => t.transform_coord c)) := by
  cases L with
  | nil => rfl
  | cons c cs =>
    have h1 : CellShape.from_coordinate_list
        ((CellShape.from_coordinate_list (c :: cs)).tiles.map (fun d => t.transform_coord d)) =
        CellShape.from_coordinate_list
          (((c :: cs).map (shiftBy (foldlMin Coord.x c.x cs) (foldlMin Coord.y c.y cs))).map
            (fun d => t.transform_coord d)) := by
      apply fcl_mem_congr
      intro d
      constructor
      · intro hd
        obtain ⟨e, he, rfl⟩ := List.mem_map.mp hd
        exact List.mem_map.mpr ⟨e, mem_fcl_cons.mp he, rfl⟩
      · intro hd
        obtain ⟨e, he, rfl⟩ := List.mem_map.mp hd
        exact List.mem_map.mpr ⟨e, mem_fcl_cons.mpr he, rfl⟩
    rw [h1, List.map_map]
    have h2 : (fun d => t.transform_coord d) ∘
          (shiftBy (foldlMin Coord.x c.x cs) (foldlMin Coord.y c.y cs)) =
        fun d => (t.transform_coord d).add
          ⟨-(t.elems 0 0 * foldlMin Coord.x c.x cs + t.elems 0 1 * foldlMin Coord.y c.y cs),
           -(t.elems 1 0 * foldlMin Coord.x c.x cs + t.elems 1 1 * foldlMin Coord.y c.y cs)⟩ := by
      funext d
      simp only [Function.comp_apply, shiftBy, Transform.transform_coord, Coord.add,
        Coord.mk.injEq]
      constructor <;> ring
    rw [h2]
    have h3 : (c :: cs).map (fun d => (t.transform_coord d).add
          ⟨-(t.elems 0 0 * foldlMin Coord.x c.x cs + t.elems 0 1 * foldlMin Coord.y c.y cs),
           -(t.elems 1 0 * foldlMin Coord.x c.x cs + t.elems 1 1 * foldlMin Coord.y c.y cs)⟩) =
        ((c :: cs).map (fun d => t.transform_coord d)).map (fun d => d.add
          ⟨-(t.elems 0 0 * foldlMin Coord.x c.x cs + t.elems 0 1 * foldlMin Coord.y c.y cs),
           -(t.elems 1 0 * foldlMin Coord.x c.x cs + t.elems 1 1 * foldlMin Coord.y c.y cs)⟩) := by
      rw [List.map_map]
      rfl
    rw [h3, fcl_translate]

/-! ### Transform algebra -/

/-- The representation invariant of every Transform the program can build:
the third matrix row is [0, 0, 1] (homogeneous coordinates). -/
def thirdRowOK (t : Transform) : Prop :=
  t.elems 2 0 = 0 ∧ t.elems 2 1 = 0 ∧ t.elems 2 2 = 1

instance (t : Transform) : Decidable (thirdRowOK t) :=
  inferInstanceAs (Decidable (_ ∧ _ ∧ _))

/-- Entrywise 3x3 integer matrix product. -/
def matMul3 (A B : Fin 3 → Fin 3 → Int) : Fin 3 → Fin 3 → Int :=
  fun r c => A r 0 * B 0 c + A r 1 * B 1 c + A r 2 * B 2 c

theorem compose_elems (a b : Transform) (r c : Fin 3) :
    (Transform.compose a b).elems r c = Transform.dot a b c r := by
  fin_cases r <;> fin_cases c <;> rfl

theorem compose_elems_eq_matMul3 (a b : Transform) :
    (Transform.compose a b).elems = matMul3 b.elems a.elems := by
  funext r c
  rw [compose_elems]
  simp only [Transform.dot, Transform.atIdx, matMul3]
  ring

theorem tc_identity (c : Coord) : Transform.identity.transform_coord c = c := by
  obtain ⟨x, y⟩ := c
  show Coord.mk (1 * x + 0 * y + 0) (0 * x + 1 * y + 0) = Coord.mk x y
  simp

theorem tc_compose (a b : Transform) (ha : thirdRowOK a) (p : Coord) :
    (Transform.compose a b).transform_coord p =
      b.transform_coord (a.transform_coord p) := by
  obtain ⟨h20, h21, h22⟩ := ha
  obtain ⟨x, y⟩ := p
  simp only [Transform.transform_coord, compose_elems, Transform.dot, Transform.atIdx,
    Coord.mk.injEq]
  rw [h20, h21, h22]
  constructor <;> ring

/-! ### The dihedral group DihedralGroup 4 realizes the 8 transforms -/

/-- The 8 rigid symmetries indexed by the dihedral group of order 8:
rotations r i map to the i-quarter turns, reflections sr i to the mirror that
equals mirror_horizontal preceded by i quarter turns. -/
def toTransform : DihedralGroup 4 → Transform
  | .r i =>
    [Transform.identity, Transform.rotate90,
     Transform.rotate180, Transform.rotate270].getD i.val Transform.identity
  | .sr i =>
    [Transform.mirror_horizontal, Transform.mirror_diagonal,
     Transform.mirror_vertical, Transform.mirror_diagonal2].getD i.val Transform.identity

set_option maxHeartbeats 2000000 in
theorem toTransform_antihom (a b : DihedralGroup 4) :
    toTransform (a * b) = Transform.compose (toTransform b) (toTransform a) := by
  revert a b
  decide

set_option maxHeartbeats 400000 in
theorem toTransform_thirdRowOK (g : DihedralGroup 4) : thirdRowOK (toTransform g) := by
  revert g
  decide

theorem toTransform_one : toTransform 1 = Transform.identity := rfl

set_option maxHeartbeats 2000000 in
theorem toTransform_surj :
    ∀ t ∈ RIGID_SYMMETRIES, ∃ g : DihedralGroup 4, toTransform g = t := by
  decide

set_option maxHeartbeats 2000000 in
theorem toTransform_mem (g : DihedralGroup 4) : toTransform g ∈ RIGID_SYMMETRIES := by
  revert g
  decide

/-! ### The action of DihedralGroup 4 on canonical shapes -/

/-- The canonical shapes: fixed points of normalization (exactly the values
CellShape constructors can produce). -/
abbrev CanonShape : Type :=
  {s : CellShape // CellShape.from_coordinate_list s.tiles = s}

instance : DecidableEq CanonShape :=
  Subtype.instDecidableEq

instance : SMul (DihedralGroup 4) CanonShape where
  smul g s :=
    ⟨(toTransform g).transform_shape s.1,
     fcl_idem (s.1.tiles.map (fun c => (toTransform g).transform_coord c))⟩

theorem canonSmul_val (g : DihedralGroup 4) (s : CanonShape) :
    (g • s).1 = (toTransform g).transform_shape s.1 := rfl

instance : MulAction (DihedralGroup 4) CanonShape where
  one_smul s := by
    apply Subtype.ext
    rw [canonSmul_val, toTransform_one]
    show CellShape.from_coordinate_list
      (s.1.tiles.map (fun c => Transform.identity.transform_coord c)) = s.1
    rw [List.map_congr_left (fun c _ => tc_identity c), List.map_id']
    exact s.2
  mul_smul g₁ g₂ s := by
    apply Subtype.ext
    rw [canonSmul_val, canonSmul_val, canonSmul_val]
    show CellShape.from_coordinate_list
        (s.1.tiles.map (fun c => (toTransform (g₁ * g₂)).transform_coord c)) =
      (toTransform g₁).transform_shape
        (CellShape.from_coordinate_list (s.1.tiles.map (fun c => (toTransform g₂).transform_coord c)))
    have hpt : ∀ c ∈ s.1.tiles, (toTransform (g₁ * g₂)).transform_coord c =
        (toTransform g₁).transform_coord ((toTransform g₂).transform_coord c) := by
      intro c _
      rw [toTransform_antihom g₁ g₂]
      exact tc_compose _ _ (toTransform_thirdRowOK g₂) c
    rw [List.map_congr_left hpt]
    show CellShape.from_coordinate_list
        (s.1.tiles.map (fun c =>
          (toTransform g₁).transform_coord ((toTransform g₂).transform_coord c))) =
      CellShape.from_coordinate_list
        ((CellShape.from_coordinate_list
            (s.1.tiles.map (fun c => (toTransform g₂).transform_coord c))).tiles.map
          (fun c => (toTransform g₁).transform_coord c))
    rw [fcl_map_fcl (toTransform g₁)
      (s.1.tiles.map (fun c => (toTransform g₂).transform_coord c)), List.map_map]
    rfl

/-! ### The orientation set is an orbit of the dihedral action -/

theorem smul_val_transform_shape (g : DihedralGroup 4) (S : CellShape) :
    ((g • (⟨CellShape.from_coordinate_list S.tiles, fcl_idem S.tiles⟩ : CanonShape)).1) =
      (toTransform g).transform_shape S := by
  rw [canonSmul_val]
  show CellShape.from_coordinate_list
      ((CellShape.from_coordinate_list S.tiles).tiles.map
        (fun c => (toTransform g).transform_coord c)) =
    CellShape.from_coordinate_list (S.tiles.map (fun c => (toTransform g).transform_coord c))
  exact fcl_map_fcl _ _

theorem orientationsOf_eq_image (S : CellShape) :
    orientationsOf S = Finset.image
      (fun g : DihedralGroup 4 =>
        (g • (⟨CellShape.from_coordinate_list S.tiles, fcl_idem S.tiles⟩ : CanonShape)).1)
      Finset.univ := by
  ext x
  simp only [orientationsOf, create_all_orientations, List.mem_toFinset, List.mem_map,
    Finset.mem_image, Finset.mem_univ, true_and]
  constructor
  · rintro ⟨t, ht, rfl⟩
    obtain ⟨g, rfl⟩ := toTransform_surj t ht
    exact ⟨g, smul_val_transform_shape g S⟩
  · rintro ⟨g, rfl⟩
    exact ⟨toTransform g, toTransform_mem g, (smul_val_transform_shape g S).symm⟩

theorem orientationsOf_card_eq (S : CellShape) :
    (orientationsOf S).card = Nat.card (MulAction.orbit (DihedralGroup 4)
      (⟨CellShape.from_coordinate_list S.tiles, fcl_idem S.tiles⟩ : CanonShape)) := by
  rw [orientationsOf_eq_image]
  have h1 : Finset.image
      (fun g : DihedralGroup 4 =>
        (g • (⟨CellShape.from_coordinate_list S.tiles, fcl_idem S.tiles⟩ : CanonShape)).1)
      Finset.univ =
      Finset.image Subtype.val (Finset.image
        (fun g : DihedralGroup 4 =>
          g • (⟨CellShape.from_coordinate_list S.tiles, fcl_idem S.tiles⟩ : CanonShape))
        Finset.univ) := by
    rw [Finset.image_image]
    rfl
  rw [h1, Finset.card_image_of_injective _ Subtype.val_injective,
    ← Set.ncard_coe_Finset, Finset.coe_image, Finset.coe_univ, Set.image_univ,
    ← Set.Nat.card_coe_set_eq]
  rfl

theorem orbit_card_dvd_eight (N : CanonShape) :
    Nat.card (MulAction.orbit (DihedralGroup 4) N) ∣ 8 := by
  have h1 : Nat.card (MulAction.orbit (DihedralGroup 4) N) =
      Nat.card (DihedralGroup 4 ⧸ MulAction.stabilizer (DihedralGroup 4) N) :=
    Nat.card_congr (MulAction.orbitEquivQuotientStabilizer _ _)
  have h2 := Subgroup.card_quotient_dvd_card (MulAction.stabilizer (DihedralGroup 4) N)
  rw [DihedralGroup.nat_card] at h2
  rw [h1]
  exact h2

/-! ### The canonical Shape invariant -/

/-- The canonical Shape invariant: when nonempty, the minimum x and minimum y
over the tiles are both 0 (all coordinates nonnegative and both bounds
attained), and the tile sequence is sorted by coord_cmp without duplicates. -/
def canonicalInv (s : CellShape) : Prop :=
  s.tiles.Sorted coord_le ∧ s.tiles.Nodup ∧
    (s.tiles ≠ [] →
      (∀ c ∈ s.tiles, 0 ≤ c.x ∧ 0 ≤ c.y) ∧
      (∃ c ∈ s.tiles, c.x = 0) ∧ (∃ c ∈ s.tiles, c.y = 0))

theorem fcl_canonicalInv (L : List Coord) :
    canonicalInv (CellShape.from_coordinate_list L) := by
  refine ⟨fcl_sorted L, fcl_nodup L, ?_⟩
  intro hne
  cases L with
  | nil => exact absurd rfl hne
  | cons c cs => exact ⟨fcl_nonneg, fcl_attains_x, fcl_attains_y⟩

/-! ### Literal orientation lists for the two symmetric pentominoes -/

/-- The unique orientation of the plus/X shape, in canonical form. -/
def plusOrientation : CellShape :=
  ⟨[⟨0, 1⟩, ⟨1, 0⟩, ⟨1, 1⟩, ⟨1, 2⟩, ⟨2, 1⟩]⟩

/-- The vertical orientation of the I shape, in canonical form. -/
def iVertical : CellShape :=
  ⟨[⟨0, 0⟩, ⟨0, 1⟩, ⟨0, 2⟩, ⟨0, 3⟩, ⟨0, 4⟩]⟩

/-- The horizontal orientation of the I shape, in canonical form. -/
def iHorizontal : CellShape :=
  ⟨[⟨0, 0⟩, ⟨1, 0⟩, ⟨2, 0⟩, ⟨3, 0⟩, ⟨4, 0⟩]⟩

set_option maxHeartbeats 2000000 in
theorem plus_orientation_list :
    RIGID_SYMMETRIES.map (fun t => t.transform_shape
      (CellShape.from_coordinate_list [⟨1, 0⟩, ⟨0, 1⟩, ⟨1, 1⟩, ⟨2, 1⟩, ⟨1, 2⟩])) =
    List.replicate 8 plusOrientation := by
  rfl

set_option maxHeartbeats 2000000 in
theorem i_orientation_list :
    RIGID_SYMMETRIES.map (fun t => t.transform_shape
      (CellShape.from_2darray
        [[Tile.Filled], [Tile.Filled], [Tile.Filled], [Tile.Filled], [Tile.Filled]])) =
    [iVertical, iVertical, iVertical, iHorizontal, iHorizontal, iHorizontal,
     iVertical, iHorizontal] := by
  rfl

/-! ### The claims -/

/-- C1: for every Shape S, the orientation enumerator (all 8 transforms of
RIGID_SYMMETRIES applied through transform_shape, collected under Shape value
equality) returns a set of size exactly 1, 2, 4 or 8; in particular its size
divides 8. -/
theorem claim_C1_orientation_count_divides_eight (S : CellShape) :
    (orientationsOf S).card ∣ 8 ∧
      ((orientationsOf S).card = 1 ∨ (orientationsOf S).card = 2 ∨
       (orientationsOf S).card = 4 ∨ (orientationsOf S).card = 8) := by
  have hdvd : (orientationsOf S).card ∣ 8 := by
    rw [orientationsOf_card_eq]
    exact orbit_card_dvd_eight _
  refine ⟨hdvd, ?_⟩
  have hmem : (orientationsOf S).card ∈ Nat.divisors 8 :=
    Nat.mem_divisors.mpr ⟨hdvd, by norm_num⟩
  have hdiv : Nat.divisors 8 = {1, 2, 4, 8} := by decide
  rw [hdiv] at hmem
  simpa using hmem

/-- C2: every Shape produced by from_coordinate_list, from_2darray or
transform_shape satisfies the canonical invariant: when nonempty, minimum x
and minimum y are both 0, and the tile sequence is sorted by (x, then y)
ascending with no duplicate coordinates. -/
theorem claim_C2_constructors_canonical :
    (∀ L : List Coord, canonicalInv (CellShape.from_coordinate_list L)) ∧
    (∀ grid : List (List Tile), canonicalInv (CellShape.from_2darray grid)) ∧
    (∀ (t : Transform) (s : CellShape), canonicalInv (t.transform_shape s)) :=
  ⟨fcl_canonicalInv, fun _ => fcl_canonicalInv _, fun _ _ => fcl_canonicalInv _⟩

set_option maxHeartbeats 2000000 in
/-- C3: group closure: the composition of any two of the 8 canonical
transforms equals (by matrix contents) one of the 8 canonical transforms. -/
theorem claim_C3_group_closure :
    ∀ a ∈ RIGID_SYMMETRIES, ∀ b ∈ RIGID_SYMMETRIES,
      Transform.compose a b ∈ RIGID_SYMMETRIES := by
  decide

theorem claim_C3_group_closure_witness :
    Transform.compose Transform.rotate90 Transform.mirror_horizontal ∈ RIGID_SYMMETRIES :=
  claim_C3_group_closure Transform.rotate90 (by decide)
    Transform.mirror_horizontal (by decide)

set_option maxHeartbeats 1000000 in
/-- C4: the dihedral identities under the engine's composition: four quarter
turns are the identity, the horizontal mirror is an involution,
mirror_vertical = rotate90 * rotate90 * mirror_horizontal and
mirror_diagonal = rotate90 * mirror_horizontal (source association order). -/
theorem claim_C4_group_identities :
    Transform.compose (Transform.compose (Transform.compose
        Transform.rotate90 Transform.rotate90) Transform.rotate90) Transform.rotate90 =
      Transform.identity ∧
    Transform.compose Transform.mirror_horizontal Transform.mirror_horizontal =
      Transform.identity ∧
    Transform.mirror_vertical =
      Transform.compose (Transform.compose Transform.rotate90 Transform.rotate90)
        Transform.mirror_horizontal ∧
    Transform.mirror_diagonal =
      Transform.compose Transform.rotate90 Transform.mirror_horizontal := by
  decide

/-- C5: translation invariance: adding any displacement to every cell of a
canonical Shape and renormalizing gives back the same Shape; consequently the
two marker grids of the spec that differ only by a uniform shift construct
equal Shapes. -/
theorem claim_C5_translation_invariance :
    (∀ (L : List Coord) (v : Vec2D),
      CellShape.from_coordinate_list
          ((CellShape.from_coordinate_list L).filled_tiles.map (fun c => c.add v)) =
        CellShape.from_coordinate_list L) ∧
    CellShape.from_2darray [[Tile.Empty, Tile.Filled], [Tile.Filled, Tile.Empty]] =
      CellShape.from_2darray
        [[Tile.Empty, Tile.Empty], [Tile.Empty, Tile.Empty], [Tile.Empty, Tile.Empty],
         [Tile.Empty, Tile.Filled], [Tile.Filled, Tile.Empty], [Tile.Empty, Tile.Empty]] := by
  constructor
  · intro L v
    show CellShape.from_coordinate_list
        ((CellShape.from_coordinate_list L).tiles.map (fun c => c.add v)) =
      CellShape.from_coordinate_list L
    rw [fcl_translate]
    exact fcl_idem L
  · decide

/-- C6: normalization is idempotent: re-normalizing the cell sequence of a
normalized shape gives the same shape. -/
theorem claim_C6_normalization_idempotent (L : List Coord) :
    CellShape.from_coordinate_list
        (CellShape.from_coordinate_list L).filled_tiles =
      CellShape.from_coordinate_list L :=
  fcl_idem L

/-- C7: the plus/X shape with cells (1,0),(0,1),(1,1),(2,1),(1,2) has exactly
1 distinct orientation, and the I shape of 5 cells in one column has exactly
2 distinct orientations. -/
theorem claim_C7_known_orientation_counts :
    (orientationsOf
      (CellShape.from_coordinate_list [⟨1, 0⟩, ⟨0, 1⟩, ⟨1, 1⟩, ⟨2, 1⟩, ⟨1, 2⟩])).card = 1 ∧
    (orientationsOf
      (CellShape.from_2darray
        [[Tile.Filled], [Tile.Filled], [Tile.Filled], [Tile.Filled], [Tile.Filled]])).card = 2 := by
  constructor
  · simp only [orientationsOf, create_all_orientations, plus_orientation_list]
    decide
  · simp only [orientationsOf, create_all_orientations, i_orientation_list]
    decide

set_option maxHeartbeats 1000000 in
/-- C8: the empty Shape is a fixed point: every canonical transform maps it to
itself, and the orientation enumerator returns exactly the singleton of the
empty Shape. -/
theorem claim_C8_empty_shape_fixed :
    (∀ t ∈ RIGID_SYMMETRIES, t.transform_shape CellShape.empty = CellShape.empty) ∧
      orientationsOf CellShape.empty = {CellShape.empty} := by
  constructor
  · intro t _
    rfl
  · decide

theorem claim_C8_empty_shape_fixed_witness :
    Transform.rotate90.transform_shape CellShape.empty = CellShape.empty :=
  claim_C8_empty_shape_fixed.1 Transform.rotate90 (by decide)

/-- C9: rotate90 maps the point (0,1) to (1,0) and the point (1,0) to (0,-1),
fixing the downward-y axis convention. -/
theorem claim_C9_rotate90_point_examples :
    Transform.rotate90.transform_coord ⟨0, 1⟩ = (⟨1, 0⟩ : Coord) ∧
    Transform.rotate90.transform_coord ⟨1, 0⟩ = (⟨0, -1⟩ : Coord) := by
  decide

/-- C10: compose(a, b) builds the matrix product b.elems * a.elems
(entrywise), hence — for operands whose third row is the homogeneous [0,0,1],
an invariant of every Transform the program can construct — composition
applies the left operand first on coordinates. -/
theorem claim_C10_compose_applies_left_first :
    (∀ a b : Transform, (Transform.compose a b).elems = matMul3 b.elems a.elems) ∧
    (∀ a b : Transform, thirdRowOK a → ∀ p : Coord,
      (Transform.compose a b).transform_coord p =
        b.transform_coord (a.transform_coord p)) :=
  ⟨compose_elems_eq_matMul3, fun a b ha p => tc_compose a b ha p⟩

theorem claim_C10_compose_applies_left_first_witness :
    thirdRowOK Transform.rotate90 ∧
      (Transform.compose Transform.rotate90 Transform.mirror_horizontal).transform_coord
          ⟨3, 5⟩ =
        Transform.mirror_horizontal.transform_coord
          (Transform.rotate90.transform_coord ⟨3, 5⟩) :=
  ⟨by decide,
   claim_C10_compose_applies_left_first.2 Transform.rotate90 Transform.mirror_horizontal
     (by decide) ⟨3, 5⟩⟩
